import Mathlib

/-!
# Verification of the web outline extractor core

A shallow embedding (over `List Char` / `List Nat`) of the core of
`web_outline_extractor.py`: text normalization, word-budget truncation,
image-reference tagging, search-variant generation, the heading-outline
extraction loop (ordinal counters, hierarchical path stack, section-content
preview), the JSON renderer, and the CSS/image resource inliner.

Python strings are modelled as `List Char`, byte strings as `List Nat`,
and the BeautifulSoup DOM as an inductive `Node` tree.
-/

namespace WOE

/-- Python whitespace (`\s` over ASCII): space, tab, newline, carriage
return, vertical tab, form feed. -/
def pyIsSpace (c : Char) : Bool :=
  c = ' ' || c = '\t' || c = '\n' || c = '\x0d' || c = '\x0b' || c = '\x0c'

/-- Model of Python `str.lower()` restricted to ASCII: map `A`-`Z` to
`a`-`z`, leave everything else unchanged. -/
def pyToLower (c : Char) : Char :=
  if 'A' ≤ c ∧ c ≤ 'Z' then Char.ofNat (c.toNat + 32) else c

/-- `str.lower()` applied to a whole string. -/
def pyLower (l : List Char) : List Char := l.map pyToLower

/-- Strip leading Python whitespace (the left half of `str.strip()`). -/
def lstrip (l : List Char) : List Char := l.dropWhile pyIsSpace

/-- Strip trailing Python whitespace (the right half of `str.strip()`). -/
def rstrip (l : List Char) : List Char := (l.reverse.dropWhile pyIsSpace).reverse

/-- Model of Python `str.strip()`: drop leading and trailing whitespace. -/
def pyStrip (l : List Char) : List Char := rstrip (lstrip l)

/-- Model of Python `str.split()` with no argument: split on runs of
whitespace, dropping empty fragments. -/
def splitWs (l : List Char) : List (List Char) :=
  match l with
  | [] => []
  | c :: cs =>
    if pyIsSpace c then splitWs cs
    else (c :: cs.takeWhile (fun d => !pyIsSpace d)) ::
      splitWs (cs.dropWhile (fun d => !pyIsSpace d))
termination_by l.length
decreasing_by
  all_goals simp only [List.length_cons]
  · omega
  · have := (List.dropWhile_sublist (l := cs) (fun d => !pyIsSpace d)).length_le
    omega

/-- Model of `' '.join(ws)`: concatenate with single-space separators. -/
def joinSpace : List (List Char) → List Char
  | [] => []
  | [w] => w
  | w :: ws => w ++ ' ' :: joinSpace ws

/-- Model of `re.sub(r'\s+', ' ', l)`: collapse each maximal run of
whitespace into a single space. -/
def collapseWs : List Char → List Char
  | [] => []
  | c :: cs =>
    if pyIsSpace c then ' ' :: collapseWs (cs.dropWhile pyIsSpace)
    else c :: collapseWs cs
termination_by l => l.length
decreasing_by
  all_goals simp only [List.length_cons]
  · have := (List.dropWhile_sublist (l := cs) pyIsSpace).length_le
    omega
  · omega

/-- `re.sub(r'\s+', ' ', text.strip())`, the shared normalization step of
`clean_heading_text` and `truncate_to_words`. -/
def normWs (l : List Char) : List Char := collapseWs (pyStrip l)

/-- `clean_heading_text` from the source: empty input yields empty output;
otherwise strip, collapse whitespace runs to single spaces, replace any
remaining newlines and tabs by spaces, and strip again. -/
def clean_heading_text (l : List Char) : List Char :=
  if l = [] then []
  else
    let cleaned := normWs l
    let cleaned := cleaned.map fun c => if c = '\n' then ' ' else c
    let cleaned := cleaned.map fun c => if c = '\t' then ' ' else c
    pyStrip cleaned

/-- `truncate_to_words` from the source: empty input yields empty output;
otherwise normalize whitespace, split into words, return the normalized
text when at most `word_limit` words, else the first `word_limit` words
joined by single spaces with `...` appended. -/
def truncate_to_words (l : List Char) (word_limit : Nat) : List Char :=
  if l = [] then []
  else
    let cleaned := normWs l
    let words := splitWs cleaned
    if words.length ≤ word_limit then cleaned
    else joinSpace (words.take word_limit) ++ "...".toList

/-! ## Image-reference tagger (`replace_images_with_tags`) -/

/-- The character class `[a-zA-Z0-9_-]` of the image filename pattern. -/
def isImgStemChar (c : Char) : Bool :=
  ('a' ≤ c ∧ c ≤ 'z') || ('A' ≤ c ∧ c ≤ 'Z') || ('0' ≤ c ∧ c ≤ '9') || c = '_' || c = '-'

/-- The extension alternation `(jpg|jpeg|png|gif|svg|webp|bmp)` in the
order written in the source regex (tried left to right). -/
def imageExts : List (List Char) :=
  ["jpg".toList, "jpeg".toList, "png".toList, "gif".toList,
   "svg".toList, "webp".toList, "bmp".toList]

/-- Case-insensitively match one of `imageExts` at the head of `l`
(first alternative wins, as in the regex); returns the matched original
characters and the remainder. -/
def matchImageExt (l : List Char) : Option (List Char × List Char) :=
  imageExts.foldr
    (fun e acc =>
      if (l.take e.length).map pyToLower = e then some (l.take e.length, l.drop e.length)
      else acc)
    none

/-- Attempt the regex `([a-zA-Z0-9_-]+\.(jpg|jpeg|png|gif|svg|webp|bmp))`
(with `re.IGNORECASE`) at the head of `l`: a nonempty greedy stem, a
literal dot, then an extension.  Returns `(stem, ext, rest)`. -/
def tryImageMatch (l : List Char) : Option (List Char × List Char × List Char) :=
  let stem := l.takeWhile isImgStemChar
  if stem = [] then none
  else
    match l.drop stem.length with
    | c :: afterDot =>
      if c = '.' then
        match matchImageExt afterDot with
        | some (e, rest) => some (stem, e, rest)
        | none => none
      else none
    | [] => none

theorem tryImageMatch_rest_length {l stem e rest : List Char}
    (h : tryImageMatch l = some (stem, e, rest)) : rest.length < l.length := by
  unfold tryImageMatch at h
  set s := l.takeWhile isImgStemChar with hs
  by_cases h0 : s = []
  · simp [h0] at h
  · simp only [h0, if_false] at h
    rcases hd : l.drop s.length with _ | ⟨c, afterDot⟩ <;> rw [hd] at h
    · simp at h
    · simp only [] at h
      by_cases hc : c = '.'
      · rw [if_pos hc] at h
        rcases hm : matchImageExt afterDot with _ | ⟨me, mrest⟩ <;> rw [hm] at h
        · simp at h
        · simp only [Option.some.injEq, Prod.mk.injEq] at h
          obtain ⟨-, -, hrest⟩ := h
          have h1 : rest.length ≤ afterDot.length := by
            subst hrest
            unfold matchImageExt at hm
            have : ∀ (exts : List (List Char)) (acc : Option (List Char × List Char)),
                (∀ a b, acc = some (a, b) → b.length ≤ afterDot.length) →
                exts.foldr (fun e acc =>
                  if (afterDot.take e.length).map pyToLower = e then
                    some (afterDot.take e.length, afterDot.drop e.length)
                  else acc) acc = some (me, mrest) → mrest.length ≤ afterDot.length := by
              intro exts
              induction exts with
              | nil => intro acc hacc hfold; exact hacc _ _ hfold
              | cons x xs ih =>
                intro acc hacc hfold
                simp only [List.foldr_cons] at hfold
                by_cases hx : (afterDot.take x.length).map pyToLower = x
                · simp only [hx, if_true, Option.some.injEq, Prod.mk.injEq] at hfold
                  obtain ⟨-, h2⟩ := hfold
                  subst h2
                  simpa using List.length_drop .. ▸ Nat.sub_le _ _
                · simp only [hx, if_false] at hfold
                  exact ih acc hacc hfold
            exact this imageExts none (by simp) hm
          have h2 : afterDot.length + 1 = l.length - s.length := by
            have := congrArg List.length hd
            simpa using this.symm
          have h3 : s.length ≤ l.length := by
            rw [hs]; exact (List.takeWhile_sublist _).length_le
          have h4 : s ≠ [] := h0
          have h5 : 0 < s.length := List.length_pos.mpr h4
          omega
      · rw [if_neg hc] at h
        exact absurd h (by simp)

/-- `replace_images_with_tags` from the source: scan left to right,
non-overlapping; each match `stem.ext` is replaced by
`[IMAGE: <base>]` where `<base>` is `filename.split('.')[0]`. -/
def replace_images_with_tags : List Char → List Char
  | [] => []
  | c :: cs =>
    match h : tryImageMatch (c :: cs) with
    | some (stem, e, rest) =>
      let base := ((stem ++ '.' :: e).splitOn '.').headD []
      "[IMAGE: ".toList ++ base ++ ']' :: replace_images_with_tags rest
    | none => c :: replace_images_with_tags cs
termination_by l => l.length
decreasing_by
  · exact tryImageMatch_rest_length h
  · simp only [List.length_cons]; omega

/-! ## Search-variant generator (`generate_search_variants`) -/

/-- Python `\w` over ASCII: `[a-zA-Z0-9_]`. -/
def isWordChar (c : Char) : Bool :=
  ('a' ≤ c ∧ c ≤ 'z') || ('A' ≤ c ∧ c ≤ 'Z') || ('0' ≤ c ∧ c ≤ '9') || c = '_'

/-- The deduplication loop at the end of `generate_search_variants`:
keep a variant when it was not seen before and its `strip()` is nonempty. -/
def dedupVariants (seen : List (List Char)) : List (List Char) → List (List Char)
  | [] => []
  | v :: vs =>
    if v ∉ seen ∧ pyStrip v ≠ [] then v :: dedupVariants (v :: seen) vs
    else dedupVariants seen vs

/-- The fixed prefix list of `generate_search_variants`. -/
def prefixesToRemove : List (List Char) :=
  ["chapter ".toList, "part ".toList, "section ".toList,
   "quick reference: ".toList, "optional rule: ".toList]

/-- `generate_search_variants` from the source: lowercased title,
prefix-stripped forms, acronym, punctuation-stripped form, significant
words, then deduplicated dropping blank candidates. -/
def generate_search_variants (title : List Char) : List (List Char) :=
  if title = [] then []
  else
    let titleLower := pyLower title
    let fromPrefixes := prefixesToRemove.filterMap fun p =>
      if p.isPrefixOf titleLower then some (titleLower.drop p.length) else none
    let words := splitWs title
    let acronyms :=
      if words.length > 1 then
        let acronym := (words.filterMap fun w => w.head?).map pyToLower
        if acronym.length > 1 then [acronym] else []
      else []
    let noSpecial := titleLower.filter fun c => isWordChar c || pyIsSpace c
    let noSpecials := if noSpecial ≠ titleLower then [noSpecial] else []
    let significant := (words.filter fun w => w.length > 3).map pyLower
    dedupVariants []
      (titleLower :: fromPrefixes ++ acronyms ++ noSpecials ++ significant)

/-! ## DOM model

A BeautifulSoup document is modelled as a forest of nodes; an element
carries its tag name, its attribute list, and its children.  Equality of
nodes is structural, matching bs4's `Tag.__eq__` (same name, attributes
and contents) and `NavigableString` equality (string equality), which is
what the `current != stop_element` test in `extract_section_content`
uses. -/

inductive Node where
  | text : List Char → Node
  | elem : String → List (String × List Char) → List Node → Node

mutual
def nodeDecEq : (a b : Node) → Decidable (a = b)
  | .text s, .text t =>
    if h : s = t then .isTrue (by rw [h])
    else .isFalse (fun hh => by injection hh with h'; exact h h')
  | .text _, .elem _ _ _ => .isFalse (fun hh => by injection hh)
  | .elem _ _ _, .text _ => .isFalse (fun hh => by injection hh)
  | .elem t1 a1 c1, .elem t2 a2 c2 =>
    if h1 : t1 = t2 then
      if h2 : a1 = a2 then
        match nodeListDecEq c1 c2 with
        | .isTrue h3 => .isTrue (by rw [h1, h2, h3])
        | .isFalse h3 => .isFalse (fun hh => by injection hh with _ _ h'; exact h3 h')
      else .isFalse (fun hh => by injection hh with _ h' _; exact h2 h')
    else .isFalse (fun hh => by injection hh with h' _ _; exact h1 h')

def nodeListDecEq : (a b : List Node) → Decidable (a = b)
  | [], [] => .isTrue rfl
  | [], _ :: _ => .isFalse (fun hh => by injection hh)
  | _ :: _, [] => .isFalse (fun hh => by injection hh)
  | x :: xs, y :: ys =>
    match nodeDecEq x y with
    | .isTrue h =>
      match nodeListDecEq xs ys with
      | .isTrue h2 => .isTrue (by rw [h, h2])
      | .isFalse h2 => .isFalse (fun hh => by injection hh with _ h'; exact h2 h')
    | .isFalse h => .isFalse (fun hh => by injection hh with h' _; exact h h')
end

instance : DecidableEq Node := nodeDecEq

/-- `element.get(key, default)`: first attribute with the given name. -/
def getAttr (attrs : List (String × List Char)) (key : String) : Option (List Char) :=
  (attrs.find? fun a => a.1 = key).map Prod.snd

/-- The six heading tag names searched by `soup.find_all`. -/
def isHeadingTag (tag : String) : Bool :=
  tag = "h1" || tag = "h2" || tag = "h3" || tag = "h4" || tag = "h5" || tag = "h6"

mutual
/-- bs4 `get_text()` with default arguments: the concatenation of all
descendant strings. -/
def getAllText : Node → List Char
  | .text s => s
  | .elem _ _ cs => getAllTextList cs

def getAllTextList : List Node → List Char
  | [] => []
  | n :: ns => getAllText n ++ getAllTextList ns
end

mutual
/-- bs4 `get_text(strip=True)`: each descendant string stripped, empty
results skipped, concatenated with no separator. -/
def getTextStrip : Node → List Char
  | .text s => pyStrip s
  | .elem _ _ cs => getTextStripList cs

def getTextStripList : List Node → List Char
  | [] => []
  | n :: ns => getTextStrip n ++ getTextStripList ns
end

/-- Tag name of a node (`heading.name`); text nodes have no tag. -/
def nodeTag : Node → String
  | .text _ => ""
  | .elem t _ _ => t

/-- Attributes of a node. -/
def nodeAttrs : Node → List (String × List Char)
  | .text _ => []
  | .elem _ a _ => a

/-- `int(heading.name[1])` for the tags `h1`–`h6`: the digit value of the
second character of the tag name. -/
def nodeLevel (n : Node) : Nat :=
  match (nodeTag n).toList.drop 1 with
  | c :: _ => c.toNat - '0'.toNat
  | [] => 0

/-- `soup.find_all(['h1',...,'h6'])` paired with each hit's following
siblings: document-order (pre-order) traversal collecting every heading
element together with the list of its next siblings (the chain that
`heading.next_sibling` walks). -/
def headingsWithSiblings : List Node → List (Node × List Node)
  | [] => []
  | .text _ :: rest => headingsWithSiblings rest
  | .elem t a cs :: rest =>
    (if isHeadingTag t then [(Node.elem t a cs, rest)] else []) ++
      headingsWithSiblings cs ++ headingsWithSiblings rest

/-- The collection loop of `extract_section_content`: walk the sibling
chain, stopping at the end or at the first sibling equal to the stop
element; tags contribute `get_text(strip=True)` and text nodes their
stripped text (the source's two branches — `get_text(strip=True)` for
tags, `current.strip()` for strings — coincide with `getTextStrip` on
both node kinds); empty fragments are skipped. -/
def collectSiblingText (stop : Option Node) : List Node → List (List Char)
  | [] => []
  | sib :: rest =>
    if some sib = stop then []
    else
      let t := getTextStrip sib
      if t = [] then collectSiblingText stop rest
      else t :: collectSiblingText stop rest

/-- `extract_section_content` from the source: join the collected sibling
text with single spaces, tag image references, truncate to 50 words.  The
stop element is the head of `next_headings`. -/
def extract_section_content (siblings : List Node) (next_headings : List Node) :
    List Char :=
  let stop := next_headings.head?
  let full_content := joinSpace (collectSiblingText stop siblings)
  truncate_to_words (replace_images_with_tags full_content) 50

/-! ## Outline extraction (`extract_headings_from_soup`) -/

/-- One extracted heading record (the dictionary built per heading). -/
structure Heading where
  title : List Char
  level : Nat
  tag : String
  id : List Char
  content : List Char
  reference_key : List Char
  hierarchical_path : List (List Char)
  search_variants : List (List Char)
deriving DecidableEq, Repr

/-- The reset loop
`for j in range(level, 6):  if j > level-1: level_counters[j] = 0`. -/
def resetDeeper (counters : List Nat) (level : Nat) : List Nat :=
  (List.range' level (6 - level)).foldl
    (fun cs j => if level - 1 < j then cs.set j 0 else cs) counters

/-- Lines 94–98 of the source: increment the counter at `level-1`, then
run the reset loop. -/
def updateCounters (counters : List Nat) (level : Nat) : List Nat :=
  resetDeeper (counters.set (level - 1) (counters[level - 1]! + 1)) level

/-- `f"[{level}.{ordinal}] {title}"`. -/
def referenceKeyOf (level ordinal : Nat) (title : List Char) : List Char :=
  '[' :: Nat.toDigits 10 level ++ '.' :: Nat.toDigits 10 ordinal ++ ']' :: ' ' :: title

/-- The main loop of `extract_headings_from_soup`, folding over the
heading elements (each paired with its sibling chain) while threading the
per-level counters and the hierarchical stack. -/
def extractLoop : List (Node × List Node) → List Nat → List (List Char) → List Heading
  | [], _, _ => []
  | (h, sibs) :: rest, counters, stack =>
    let title := clean_heading_text (getAllText h)
    if title = [] then extractLoop rest counters stack
    else
      let level := nodeLevel h
      let counters' := updateCounters counters level
      let stack' := stack.take (level - 1) ++ [title]
      let content := extract_section_content sibs (rest.map Prod.fst)
      { title := title
        level := level
        tag := nodeTag h
        id := (getAttr (nodeAttrs h) "id").getD []
        content := content
        reference_key := referenceKeyOf level (counters'[level - 1]!) title
        hierarchical_path := stack'
        search_variants := generate_search_variants title } ::
        extractLoop rest counters' stack'

/-- `extract_headings_from_soup`: find the headings and run the loop with
all six counters at zero and an empty stack. -/
def extract_headings_from_soup (doc : List Node) : List Heading :=
  extractLoop (headingsWithSiblings doc) (List.replicate 6 0) []

/-- The reference keys produced from a plain (cleaned title, level) list:
the projection of the extraction loop that claims about numbering factor
through, since keys depend only on titles and levels. -/
def keysAux : List (List Char × Nat) → List Nat → List (List Char)
  | [], _ => []
  | (title, level) :: rest, counters =>
    if title = [] then keysAux rest counters
    else
      let counters' := updateCounters counters level
      referenceKeyOf level (counters'[level - 1]!) title :: keysAux rest counters'

/-- Reference keys of a document, computed directly from raw titles and
levels (titles are cleaned inside). -/
def keysOfTitles (hs : List (List Char × Nat)) : List (List Char) :=
  keysAux (hs.map fun p => (clean_heading_text p.1, p.2)) (List.replicate 6 0)

/-! ## JSON renderer (`save_headings_json`)

Models `json.dump(output_data, f, indent=2, ensure_ascii=False)` applied
to the literal `output_data` dictionary built in the source, as a pure
function of the heading list, the source URL, and the timestamp string
produced by `time.strftime`. -/

inductive Json where
  | str : List Char → Json
  | num : Nat → Json
  | arr : List Json → Json
  | obj : List (List Char × Json) → Json

/-- JSON string escaping as `json.dump` with `ensure_ascii=False` does it:
escape the quote, the backslash and control characters, pass everything
else through raw. -/
def jsonEscapeChar (c : Char) : List Char :=
  if c = '"' then ['\\', '"']
  else if c = '\\' then ['\\', '\\']
  else if c = '\n' then ['\\', 'n']
  else if c = '\t' then ['\\', 't']
  else if c = '\x0d' then ['\\', 'r']
  else if c = '\x08' then ['\\', 'b']
  else if c = '\x0c' then ['\\', 'f']
  else if c.toNat < 32 then
    '\\' :: 'u' :: '0' :: '0' :: Nat.toDigits 16 c.toNat
  else [c]

/-- A serialized JSON string literal. -/
def jsonStr (s : List Char) : List Char :=
  '"' :: (s.flatMap jsonEscapeChar) ++ ['"']

/-- Concatenate serialized items with `,\n` separators. -/
def joinItems : List (List Char) → List Char
  | [] => []
  | [x] => x
  | x :: xs => x ++ ',' :: '\n' :: joinItems xs

mutual
/-- `json.dump` with `indent=2`: the serialization of a value whose
surrounding context sits at indentation `d`. -/
def dumpJson (d : Nat) : Json → List Char
  | .str s => jsonStr s
  | .num n => Nat.toDigits 10 n
  | .arr [] => ['[', ']']
  | .arr (x :: xs) =>
    '[' :: '\n' :: joinItems (dumpItems (d + 2) (x :: xs)) ++
      '\n' :: List.replicate d ' ' ++ [']']
  | .obj [] => ['{', '}']
  | .obj (f :: fs) =>
    '{' :: '\n' :: joinItems (dumpFields (d + 2) (f :: fs)) ++
      '\n' :: List.replicate d ' ' ++ ['}']

def dumpItems (d : Nat) : List Json → List (List Char)
  | [] => []
  | x :: xs => (List.replicate d ' ' ++ dumpJson d x) :: dumpItems d xs

def dumpFields (d : Nat) : List (List Char × Json) → List (List Char)
  | [] => []
  | (k, v) :: fs =>
    (List.replicate d ' ' ++ jsonStr k ++ ':' :: ' ' :: dumpJson d v) :: dumpFields d fs
end

/-- The `claude_code_usage` literal block of `save_headings_json`. -/
def claudeCodeUsageJson : Json :=
  .obj
    [("lookup_command".toList,
      .str "python find_section.py \"<search_term>\" --json-file <this_filename>".toList),
     ("search_options".toList,
      .obj
        [("--by-id".toList, .str "Search by element ID (e.g., 'table-of-contents')".toList),
         ("--fuzzy".toList, .str "Enable fuzzy matching for typos".toList),
         ("--all-matches".toList, .str "Show all sections matching the search term".toList),
         ("--show-content".toList, .str "Display full content preview".toList),
         ("--show-context".toList, .str "Show parent section context".toList)]),
     ("examples".toList,
      .arr
        [.str "python find_section.py \"[2.1] Table of Contents\" --json-file headings.json".toList,
         .str "python find_section.py \"Character Stats\" --json-file headings.json --fuzzy".toList,
         .str "python find_section.py \"combat\" --json-file headings.json --all-matches".toList])]

/-- One heading dictionary as placed in the `headings` array, fields in
the insertion order of `extract_headings_from_soup`. -/
def headingJson (h : Heading) : Json :=
  .obj
    [("title".toList, .str h.title),
     ("level".toList, .num h.level),
     ("tag".toList, .str h.tag.toList),
     ("id".toList, .str h.id),
     ("content".toList, .str h.content),
     ("reference_key".toList, .str h.reference_key),
     ("hierarchical_path".toList, .arr (h.hierarchical_path.map .str)),
     ("search_variants".toList, .arr (h.search_variants.map .str))]

/-- The `output_data` dictionary of `save_headings_json`. -/
def outputData (headings : List Heading) (sourceUrl timestamp : List Char) : Json :=
  .obj
    [("metadata".toList,
      .obj
        [("source_url".toList, .str sourceUrl),
         ("extraction_time".toList, .str timestamp),
         ("total_headings".toList, .num headings.length),
         ("format_version".toList, .str "2.0".toList),
         ("claude_code_usage".toList, claudeCodeUsageJson)]),
     ("headings".toList, .arr (headings.map headingJson))]

/-- The bytes `save_headings_json` writes, as a function of its pure
inputs (heading list, source URL) and the strftime timestamp. -/
def save_headings_json_text (headings : List Heading) (sourceUrl timestamp : List Char) :
    List Char :=
  dumpJson 0 (outputData headings sourceUrl timestamp)

/-- Everything `save_headings_json_text` emits before the timestamp's
string literal: the opening of the top-level object, the `metadata` key,
and the `source_url` field. -/
def jsonBeforeTimestamp (sourceUrl : List Char) : List Char :=
  "\x7b\n  ".toList ++ jsonStr "metadata".toList ++ ": \x7b\n    ".toList ++
    jsonStr "source_url".toList ++ ": ".toList ++ jsonStr sourceUrl ++
    ",\n    ".toList ++ jsonStr "extraction_time".toList ++ ": ".toList

/-- Everything `save_headings_json_text` emits after the timestamp's
string literal. -/
def jsonAfterTimestamp (headings : List Heading) : List Char :=
  ",\n    ".toList ++ jsonStr "total_headings".toList ++ ": ".toList ++
    Nat.toDigits 10 headings.length ++ ",\n    ".toList ++
    jsonStr "format_version".toList ++ ": ".toList ++ jsonStr "2.0".toList ++
    ",\n    ".toList ++ jsonStr "claude_code_usage".toList ++ ": ".toList ++
    dumpJson 4 claudeCodeUsageJson ++ "\n  \x7d,\n  ".toList ++
    jsonStr "headings".toList ++ ": ".toList ++
    dumpJson 2 (.arr (headings.map headingJson)) ++ "\n\x7d".toList

/-! ## Resource inliner (`save_headings_full_html`, lines 852–953)

The CSS- and image-embedding portion of `save_headings_full_html`.  The
network collaborator (`requests.get` + `raise_for_status`) is modelled as
an oracle `fetch : List Char → Option HttpResp` (`none` = any fetch or
status failure, i.e. the `except` branch), and URL resolution
(`urllib.parse.urljoin`) as an external collaborator function. -/

structure HttpResp where
  text : List Char
  content : List Nat
  contentType : Option (List Char)

/-- The base64 alphabet. -/
def b64Alphabet : List Char :=
  "ABCDEFGHIJKLMNOPQRSTUVWXYZabcdefghijklmnopqrstuvwxyz0123456789+/".toList

def b64Char (n : Nat) : Char := b64Alphabet.getD n 'A'

/-- `base64.b64encode` on a byte list. -/
def base64Encode : List Nat → List Char
  | b1 :: b2 :: b3 :: rest =>
    let x := (b1 % 256) * 65536 + (b2 % 256) * 256 + b3 % 256
    b64Char (x / 262144) :: b64Char (x / 4096 % 64) :: b64Char (x / 64 % 64) ::
      b64Char (x % 64) :: base64Encode rest
  | [b1, b2] =>
    let x := (b1 % 256) * 65536 + (b2 % 256) * 256
    [b64Char (x / 262144), b64Char (x / 4096 % 64), b64Char (x / 64 % 64), '=']
  | [b1] =>
    let x := (b1 % 256) * 65536
    [b64Char (x / 262144), b64Char (x / 4096 % 64), '=', '=']
  | [] => []

/-- Python `str.replace(old, new)`: replace all non-overlapping
occurrences, left to right. -/
def replaceAll (s old new : List Char) : List Char :=
  if old = [] then s
  else
    match s with
    | [] => []
    | c :: cs =>
      if old <+: (c :: cs) then new ++ replaceAll ((c :: cs).drop old.length) old new
      else c :: replaceAll cs old new
termination_by s.length
decreasing_by
  · have : 0 < old.length := List.length_pos.mpr (by assumption)
    simp only [List.length_drop, List.length_cons]
    omega
  · simp only [List.length_cons]; omega

/-- Case-insensitive literal match at the head of `l`; returns the
remainder on success. -/
def matchCI (pat : List Char) (l : List Char) : Option (List Char) :=
  if (l.take pat.length).map pyToLower = pat then some (l.drop pat.length) else none

/-- Attempt the `@import` regex
`@import\s+(?:url\()?["\']?([^)"\'\s]+)["\']?\)?[^;]*;` (IGNORECASE) at
the head of `l`.  Returns `(matched_text, group1)`; the optional `url(`
wrapper is tried greedily with fall-back, like the regex engine. -/
def tryImportMatch (l : List Char) : Option (List Char × List Char) :=
  match matchCI "@import".toList l with
  | none => none
  | some rest1 =>
    let ws := rest1.takeWhile pyIsSpace
    if ws = [] then none
    else
      let rest2 := rest1.drop ws.length
      let tryBody : List Char → Option (List Char) := fun r =>
        let q1 := if r.head? = some '"' ∨ r.head? = some '\'' then r.take 1 else []
        let r := r.drop q1.length
        let grp := r.takeWhile fun c =>
          !(c = ')' || c = '"' || c = '\'' || pyIsSpace c)
        if grp = [] then none else some grp
      let withUrl :=
        match matchCI "url(".toList rest2 with
        | some restU => (tryBody restU).map fun g => ("url(".toList, g)
        | none => none
      match withUrl <|> (tryBody rest2).map fun g => (([] : List Char), g) with
      | none => none
      | some (urlPart, grp) =>
        -- reconstruct the consumed text up to the end of the group,
        -- then `[^;]*;` consumes up to and including the next semicolon
        let afterGroup :=
          let r := rest2.drop urlPart.length
          let q1 := if r.head? = some '"' ∨ r.head? = some '\'' then 1 else 0
          r.drop (q1 + grp.length)
        let q2 := if afterGroup.head? = some '"' ∨ afterGroup.head? = some '\'' then
            afterGroup.take 1 else []
        let afterQ2 := afterGroup.drop q2.length
        let paren := if afterQ2.head? = some ')' then afterQ2.take 1 else []
        let afterParen := afterQ2.drop paren.length
        let tail := afterParen.takeWhile (fun c => c ≠ ';')
        if (afterParen.drop tail.length).head? = some ';' then
          let consumed := rest1.length - afterParen.length + tail.length + 1
          some ("@import".toList.length + consumed |> l.take, grp)
        else none

/-- `re.finditer` with the `@import` pattern: scan left to right,
non-overlapping, collecting `(matched_text, group1)` pairs. -/
def findImports : List Char → List (List Char × List Char)
  | [] => []
  | c :: cs =>
    match h : tryImportMatch (c :: cs) with
    | some (m, g) =>
      (m, g) :: findImports ((c :: cs).drop (max m.length 1))
    | none => findImports cs
termination_by l => l.length
decreasing_by
  · simp only [List.length_drop, List.length_cons]
    omega
  · simp only [List.length_cons]; omega

/-- The `@import`-resolution loop inside the stylesheet success path:
for each import found in the fetched CSS, fetch it relative to the
stylesheet's own URL and splice its text (with a provenance comment) in
place of the directive; a failed fetch leaves the directive alone. -/
def resolveImports (fetch : List Char → Option HttpResp)
    (urljoin : List Char → List Char → List Char)
    (cssUrl css : List Char) : List Char :=
  (findImports css).foldl
    (fun acc mg =>
      match fetch (urljoin cssUrl mg.1) with
      | some resp =>
        replaceAll acc mg.1
          ("/* Imported from ".toList ++ mg.2 ++ " */\n".toList ++ resp.text)
      | none => acc)
    css

/-- A `<style type="text/css">` element, with an optional `media`
attribute carried over from the link. -/
def styleNode (media : Option (List Char)) (css : List Char) : Node :=
  .elem "style"
    ([("type", "text/css".toList)] ++ (match media with
      | some m => [("media", m)]
      | none => []))
    [.text css]

mutual
/-- A crude serialization of an element (`str(link)`), used only for the
`'stylesheet' in str(link).lower()` containment test of the second CSS
pass. -/
def serializeNode : Node → List Char
  | .text s => s
  | .elem t a cs =>
    '<' :: t.toList ++
      (a.flatMap fun kv => ' ' :: kv.1.toList ++ '=' :: '"' :: kv.2 ++ ['"']) ++
      '>' :: serializeNodeL cs ++ '<' :: '/' :: t.toList ++ ['>']

def serializeNodeL : List Node → List Char
  | [] => []
  | n :: ns => serializeNode n ++ serializeNodeL ns
end

/-- Whether a forest contains a `head` element (`soup.find('head')`). -/
def hasHead : List Node → Bool
  | [] => false
  | .text _ :: rest => hasHead rest
  | .elem t _ cs :: rest => t = "head" || hasHead cs || hasHead rest

mutual
/-- Append `extra` inside the first `head` element (pre-order), if any. -/
def appendToHeadL (extra : List Node) : List Node → Option (List Node)
  | [] => none
  | n :: rest =>
    match appendToHeadN extra n with
    | some n' => some (n' :: rest)
    | none => (appendToHeadL extra rest).map (n :: ·)

def appendToHeadN (extra : List Node) : Node → Option Node
  | .text _ => none
  | .elem t a cs =>
    if t = "head" then some (.elem t a (cs ++ extra))
    else (appendToHeadL extra cs).map (.elem t a ·)
end

/-- `soup.find('head').append(...)` for each node of `extra` in order;
the document is unchanged when no `head` exists. -/
def appendToHead (extra doc : List Node) : List Node :=
  (appendToHeadL extra doc).getD doc

/-- The per-link body of the first CSS pass: given a stylesheet link's
attributes, `none` when the link is kept (no `href`, or the fetch raised)
and `some style` when an inline style block replaces it. -/
def cssLinkReplacement (fetch : List Char → Option HttpResp)
    (urljoin : List Char → List Char → List Char)
    (sourceUrl : List Char) (attrs : List (String × List Char)) : Option Node :=
  match getAttr attrs "href" with
  | none => none
  | some href =>
    if href = [] then none
    else
      let cssUrl := urljoin sourceUrl href
      match fetch cssUrl with
      | none => none
      | some resp =>
        let cssContent := pyStrip resp.text
        let cssContent := resolveImports fetch urljoin cssUrl cssContent
        some (styleNode (getAttr attrs "media") cssContent)

mutual
/-- First CSS pass (`soup.find_all('link', rel='stylesheet')` loop) over
a forest: returns the rewritten forest together with the style blocks to
append to `head` (nonempty only when a `head` exists — otherwise the
style replaces the link in place, as in the source's `else` branch). -/
def embedCssPassL (fetch : List Char → Option HttpResp)
    (urljoin : List Char → List Char → List Char)
    (sourceUrl : List Char) (headExists : Bool) :
    List Node → List Node × List Node
  | [] => ([], [])
  | n :: rest =>
    let (n', s1) := embedCssPassN fetch urljoin sourceUrl headExists n
    let (rest', s2) := embedCssPassL fetch urljoin sourceUrl headExists rest
    (n' ++ rest', s1 ++ s2)

def embedCssPassN (fetch : List Char → Option HttpResp)
    (urljoin : List Char → List Char → List Char)
    (sourceUrl : List Char) (headExists : Bool) :
    Node → List Node × List Node
  | .text s => ([.text s], [])
  | .elem t a cs =>
    if t = "link" ∧ getAttr a "rel" = some "stylesheet".toList then
      match cssLinkReplacement fetch urljoin sourceUrl a with
      | none => ([.elem t a cs], [])
      | some style =>
        if headExists then ([], [style]) else ([style], [])
    else
      let (cs', s) := embedCssPassL fetch urljoin sourceUrl headExists cs
      ([.elem t a cs'], s)
end

/-- The per-link body of the second CSS pass
(`soup.find_all('link', href=True)` loop): applies to any remaining link
whose `href` mentions `.css` or whose serialization mentions
`stylesheet`; no `@import` expansion, content prefixed with a provenance
comment. -/
def otherCssReplacement (fetch : List Char → Option HttpResp)
    (urljoin : List Char → List Char → List Char)
    (sourceUrl : List Char) (attrs : List (String × List Char))
    (cs : List Node) : Option Node :=
  match getAttr attrs "href" with
  | none => none
  | some href =>
    if ".css".toList <:+: pyLower href ∨
        "stylesheet".toList <:+: pyLower (serializeNode (.elem "link" attrs cs)) then
      match fetch (urljoin sourceUrl href) with
      | none => none
      | some resp =>
        some (styleNode none ("/* From ".toList ++ href ++ " */\n".toList ++ resp.text))
    else none

mutual
/-- Second CSS pass over a forest. -/
def otherCssPassL (fetch : List Char → Option HttpResp)
    (urljoin : List Char → List Char → List Char)
    (sourceUrl : List Char) (headExists : Bool) :
    List Node → List Node × List Node
  | [] => ([], [])
  | n :: rest =>
    let (n', s1) := otherCssPassN fetch urljoin sourceUrl headExists n
    let (rest', s2) := otherCssPassL fetch urljoin sourceUrl headExists rest
    (n' ++ rest', s1 ++ s2)

def otherCssPassN (fetch : List Char → Option HttpResp)
    (urljoin : List Char → List Char → List Char)
    (sourceUrl : List Char) (headExists : Bool) :
    Node → List Node × List Node
  | .text s => ([.text s], [])
  | .elem t a cs =>
    if t = "link" then
      match otherCssReplacement fetch urljoin sourceUrl a cs with
      | none => ([.elem t a cs], [])
      | some style =>
        if headExists then ([], [style]) else ([style], [])
    else
      let (cs', s) := otherCssPassL fetch urljoin sourceUrl headExists cs
      ([.elem t a cs'], s)
end

/-- `attrs[key] = value` (replace the value of an existing attribute). -/
def setAttr (attrs : List (String × List Char)) (key : String) (v : List Char) :
    List (String × List Char) :=
  attrs.map fun kv => if kv.1 = key then (kv.1, v) else kv

mutual
/-- Image pass (`soup.find_all('img')` loop): rewrite each `img` whose
`src` is present, nonempty and not already a `data:` URI to a base64
`data:` URI when the fetch succeeds; keep the original `src` on
failure. -/
def embedImagesL (fetch : List Char → Option HttpResp)
    (urljoin : List Char → List Char → List Char)
    (sourceUrl : List Char) : List Node → List Node
  | [] => []
  | n :: rest =>
    embedImagesN fetch urljoin sourceUrl n :: embedImagesL fetch urljoin sourceUrl rest

def embedImagesN (fetch : List Char → Option HttpResp)
    (urljoin : List Char → List Char → List Char)
    (sourceUrl : List Char) : Node → Node
  | .text s => .text s
  | .elem t a cs =>
    let cs' := embedImagesL fetch urljoin sourceUrl cs
    if t = "img" then
      match getAttr a "src" with
      | none => .elem t a cs'
      | some src =>
        if src = [] ∨ "data:".toList.isPrefixOf src then .elem t a cs'
        else
          match fetch (urljoin sourceUrl src) with
          | none => .elem t a cs'
          | some resp =>
            let ct := resp.contentType.getD "image/png".toList
            let dataUri := "data:".toList ++ ct ++ ";base64,".toList ++
              base64Encode resp.content
            .elem t (setAttr a "src" dataUri) cs'
    else .elem t a cs'
end

/-- The resource-embedding portion of `save_headings_full_html`
(lines 852–953 of the source): the stylesheet pass, the second CSS-link
pass, and the image pass, with successful CSS embeds appended to `head`
when one exists.  Per-resource failures keep the original reference and
never abort the transformation. -/
def embedResources (fetch : List Char → Option HttpResp)
    (urljoin : List Char → List Char → List Char)
    (sourceUrl : List Char) (doc : List Node) : List Node :=
  let headExists := hasHead doc
  let (doc1, styles1) := embedCssPassL fetch urljoin sourceUrl headExists doc
  let doc1 := appendToHead styles1 doc1
  let (doc2, styles2) := otherCssPassL fetch urljoin sourceUrl headExists doc1
  let doc2 := appendToHead styles2 doc2
  embedImagesL fetch urljoin sourceUrl doc2

/-! ## Demonstration documents used by the claim theorems -/

/-- `<h1>Introduction</h1><h2>Background</h2><h2>Scope</h2>`. -/
def docIntro : List Node :=
  [.elem "h1" [] [.text "Introduction".toList],
   .elem "h2" [] [.text "Background".toList],
   .elem "h2" [] [.text "Scope".toList]]

/-- `<h2>A</h2><h1>B</h1><h2>C</h2>`. -/
def docOrdinals : List Node :=
  [.elem "h2" [] [.text "A".toList],
   .elem "h1" [] [.text "B".toList],
   .elem "h2" [] [.text "C".toList]]

/-- A document whose second heading is nested inside a sibling container
of the first: `<div><h1>A</h1><div><h2>B</h2><p>after</p></div></div>`. -/
def docNested : List Node :=
  [.elem "div" []
    [.elem "h1" [] [.text "A".toList],
     .elem "div" []
       [.elem "h2" [] [.text "B".toList],
        .elem "p" [] [.text "after".toList]]]]

/-- Fetch oracle for the inliner scenario: the image URL resolves, the
stylesheet URL does not. -/
def demoFetch : List Char → Option HttpResp := fun u =>
  if u = "https://site/pic.png".toList then
    some ⟨[], [1, 2, 3], some "image/jpeg".toList⟩
  else none

/-- URL resolution collaborator for the inliner scenario. -/
def demoJoin : List Char → List Char → List Char := fun _ rel =>
  "https://site/".toList ++ rel

/-- A page with one stylesheet link (whose fetch fails) and one image
(whose fetch succeeds). -/
def demoDoc : List Node :=
  [.elem "html" []
    [.elem "head" []
      [.elem "link" [("rel", "stylesheet".toList), ("href", "style.css".toList)] []],
     .elem "body" [] [.elem "img" [("src", "pic.png".toList)] []]]]

/-! # Lemmas -/

theorem char_toNat_ofNat_valid {n : Nat} (h : n.isValidChar) :
    (Char.ofNat n).toNat = n := by
  rw [Char.ofNat, dif_pos h]
  rfl

theorem char_eq_iff_toNat {c d : Char} : c = d ↔ c.toNat = d.toNat := by
  constructor
  · intro h; rw [h]
  · intro h
    have := congrArg Char.ofNat h
    rwa [Char.ofNat_toNat, Char.ofNat_toNat] at this

theorem pyToLower_toNat_of_upper {c : Char} (h : 'A' ≤ c ∧ c ≤ 'Z') :
    (pyToLower c).toNat = c.toNat + 32 := by
  unfold pyToLower
  rw [if_pos h]
  have h1 : 'A'.toNat ≤ c.toNat := h.1
  have h2 : c.toNat ≤ 'Z'.toNat := h.2
  have hA : 'A'.toNat = 65 := rfl
  have hZ : 'Z'.toNat = 90 := rfl
  exact char_toNat_ofNat_valid (Or.inl (by omega))

theorem pyIsSpace_iff_toNat {c : Char} :
    pyIsSpace c = true ↔
      (c.toNat = 32 ∨ c.toNat = 9 ∨ c.toNat = 10 ∨ c.toNat = 13 ∨
        c.toNat = 11 ∨ c.toNat = 12) := by
  unfold pyIsSpace
  simp only [Bool.or_eq_true, decide_eq_true_eq]
  rw [char_eq_iff_toNat (d := ' '), char_eq_iff_toNat (d := '\t'),
    char_eq_iff_toNat (d := '\n'), char_eq_iff_toNat (d := '\x0d'),
    char_eq_iff_toNat (d := '\x0b'), char_eq_iff_toNat (d := '\x0c')]
  have hs : ' '.toNat = 32 := rfl
  have ht : '\t'.toNat = 9 := rfl
  have hn : '\n'.toNat = 10 := rfl
  have hr : '\x0d'.toNat = 13 := rfl
  have hv : '\x0b'.toNat = 11 := rfl
  have hf : '\x0c'.toNat = 12 := rfl
  rw [hs, ht, hn, hr, hv, hf]
  tauto

theorem pyIsSpace_pyToLower (c : Char) : pyIsSpace (pyToLower c) = pyIsSpace c := by
  by_cases h : 'A' ≤ c ∧ c ≤ 'Z'
  · have htn := pyToLower_toNat_of_upper h
    have h1 : 'A'.toNat ≤ c.toNat := h.1
    have h2 : c.toNat ≤ 'Z'.toNat := h.2
    have hA : 'A'.toNat = 65 := rfl
    have hZ : 'Z'.toNat = 90 := rfl
    have hL : pyIsSpace (pyToLower c) = false := by
      rw [← Bool.not_eq_true, pyIsSpace_iff_toNat, htn]
      omega
    have hR : pyIsSpace c = false := by
      rw [← Bool.not_eq_true, pyIsSpace_iff_toNat]
      omega
    rw [hL, hR]
  · unfold pyToLower
    rw [if_neg h]

theorem lstrip_cons_space {c : Char} (h : pyIsSpace c = true) (cs : List Char) :
    lstrip (c :: cs) = lstrip cs := by
  simp [lstrip, List.dropWhile, h]

theorem lstrip_cons_nonspace {c : Char} (h : pyIsSpace c = false) (cs : List Char) :
    lstrip (c :: cs) = c :: cs := by
  simp [lstrip, List.dropWhile, h]

theorem rstrip_nil : rstrip [] = [] := rfl

theorem rstrip_eq_nil_iff {l : List Char} :
    rstrip l = [] ↔ ∀ c ∈ l, pyIsSpace c = true := by
  unfold rstrip
  rw [List.reverse_eq_nil_iff, List.dropWhile_eq_nil_iff]
  simp

theorem rstrip_cons (c : Char) (cs : List Char) :
    rstrip (c :: cs) =
      if rstrip cs = [] then (if pyIsSpace c then [] else [c])
      else c :: rstrip cs := by
  unfold rstrip
  rw [List.reverse_cons, List.dropWhile_append]
  by_cases h : (cs.reverse.dropWhile pyIsSpace) = []
  · simp only [h, List.reverse_nil]
    simp only [List.isEmpty_iff, h, if_true, List.reverse_eq_nil_iff]
    by_cases hc : pyIsSpace c
    · simp [List.dropWhile, hc]
    · simp [List.dropWhile, hc]
  · simp only [List.isEmpty_iff, h, if_false, List.reverse_eq_nil_iff]
    rw [List.reverse_append]
    simp [List.reverse_eq_nil_iff.not.mpr h]

theorem lstrip_eq_nil_iff {l : List Char} :
    lstrip l = [] ↔ ∀ c ∈ l, pyIsSpace c = true := by
  unfold lstrip
  rw [List.dropWhile_eq_nil_iff]

theorem rstrip_word_append {w : List Char} (hw : ∀ c ∈ w, pyIsSpace c = false)
    (r : List Char) : rstrip (w ++ r) = w ++ rstrip r := by
  induction w with
  | nil => simp
  | cons c cs ih =>
    have hc : pyIsSpace c = false := hw c (by simp)
    have hcs : ∀ d ∈ cs, pyIsSpace d = false := fun d hd => hw d (by simp [hd])
    simp only [List.cons_append]
    rw [rstrip_cons, ih hcs]
    by_cases h : cs ++ rstrip r = []
    · rcases List.append_eq_nil.mp h with ⟨h1, h2⟩
      simp [h1, h2, hc]
    · simp [h]

theorem collapseWs_word_append {w : List Char} (hw : ∀ c ∈ w, pyIsSpace c = false)
    (r : List Char) : collapseWs (w ++ r) = w ++ collapseWs r := by
  induction w with
  | nil => simp
  | cons c cs ih =>
    have hc : pyIsSpace c = false := hw c (by simp)
    have hcs : ∀ d ∈ cs, pyIsSpace d = false := fun d hd => hw d (by simp [hd])
    simp only [List.cons_append]
    rw [collapseWs, if_neg (by simp [hc]), ih hcs]

theorem lstrip_rstrip_comm (l : List Char) : lstrip (rstrip l) = rstrip (lstrip l) := by
  induction l with
  | nil => rfl
  | cons c cs ih =>
    by_cases hc : pyIsSpace c
    · rw [lstrip_cons_space hc, ← ih, rstrip_cons]
      by_cases h : rstrip cs = []
      · rw [if_pos h, if_pos hc, h]
      · rw [if_neg h, lstrip_cons_space hc]
    · have hc' : pyIsSpace c = false := by simpa using hc
      rw [lstrip_cons_nonspace hc', rstrip_cons]
      by_cases h : rstrip cs = []
      · rw [if_pos h, if_neg hc, lstrip_cons_nonspace hc' []]
      · rw [if_neg h, lstrip_cons_nonspace hc']

theorem pyStrip_nil : pyStrip [] = [] := rfl

theorem collapseWs_nil : collapseWs [] = [] := by
  rw [collapseWs]

theorem collapseWs_cons_space {c : Char} (h : pyIsSpace c = true) (cs : List Char) :
    collapseWs (c :: cs) = ' ' :: collapseWs (cs.dropWhile pyIsSpace) := by
  rw [collapseWs, if_pos h]

theorem splitWs_nil : splitWs [] = [] := by
  rw [splitWs]

theorem splitWs_cons_space {c : Char} (h : pyIsSpace c = true) (cs : List Char) :
    splitWs (c :: cs) = splitWs cs := by
  rw [splitWs, if_pos h]

theorem splitWs_cons_nonspace {c : Char} (h : pyIsSpace c = false) (cs : List Char) :
    splitWs (c :: cs) =
      (c :: cs.takeWhile (fun d => !pyIsSpace d)) ::
        splitWs (cs.dropWhile (fun d => !pyIsSpace d)) := by
  rw [splitWs, if_neg (by simp [h])]

theorem joinSpace_cons_ne_nil (w : List Char) {ws : List (List Char)} (h : ws ≠ []) :
    joinSpace (w :: ws) = w ++ ' ' :: joinSpace ws := by
  rcases ws with _ | ⟨v, vs⟩
  · exact absurd rfl h
  · rfl

theorem splitWs_eq_nil_iff {l : List Char} :
    splitWs l = [] ↔ ∀ c ∈ l, pyIsSpace c = true := by
  have H : ∀ n (l : List Char), l.length = n →
      (splitWs l = [] ↔ ∀ c ∈ l, pyIsSpace c = true) := by
    intro n
    induction n with
    | zero =>
      intro l hn
      rcases l with _ | ⟨c, cs⟩
      · simp [splitWs_nil]
      · simp at hn
    | succ n ih =>
      intro l hn
      rcases l with _ | ⟨c, cs⟩
      · simp at hn
      · simp only [List.length_cons, Nat.succ.injEq] at hn
        by_cases hc : pyIsSpace c
        · rw [splitWs_cons_space hc, ih cs hn]
          simp [hc]
        · have hc' : pyIsSpace c = false := by simpa using hc
          rw [splitWs_cons_nonspace hc']
          simp [hc']
  exact H l.length l rfl

theorem splitWs_tokens {l : List Char} :
    ∀ w ∈ splitWs l, w ≠ [] ∧ ∀ c ∈ w, pyIsSpace c = false := by
  have H : ∀ n (l : List Char), l.length = n →
      ∀ w ∈ splitWs l, w ≠ [] ∧ ∀ c ∈ w, pyIsSpace c = false := by
    intro n
    induction n using Nat.strong_induction_on with
    | _ n ih =>
      intro l hn
      rcases l with _ | ⟨c, cs⟩
      · simp [splitWs_nil]
      · subst hn
        by_cases hc : pyIsSpace c
        · rw [splitWs_cons_space hc]
          exact fun w hw => ih cs.length (by simp) cs rfl w hw
        · have hc' : pyIsSpace c = false := by simpa using hc
          rw [splitWs_cons_nonspace hc']
          intro w hw
          rcases List.mem_cons.mp hw with hw | hw
          · constructor
            · simp [hw]
            · intro d hd
              rw [hw] at hd
              rcases List.mem_cons.mp hd with hd | hd
              · subst hd; exact hc'
              · have := List.mem_takeWhile_imp hd
                simpa using this
          · have hlen : (cs.dropWhile (fun d => !pyIsSpace d)).length < cs.length + 1 := by
              have := (List.dropWhile_sublist (l := cs) (fun d => !pyIsSpace d)).length_le
              omega
            exact ih _ hlen _ rfl w hw
  exact H l.length l rfl

theorem takeWhile_word_append {cs r : List Char} (hcs : ∀ c ∈ cs, pyIsSpace c = false)
    (hr : ∀ c, r.head? = some c → pyIsSpace c = true) :
    (cs ++ r).takeWhile (fun d => !pyIsSpace d) = cs := by
  induction cs with
  | nil =>
    rcases r with _ | ⟨d, ds⟩
    · rfl
    · have := hr d rfl
      simp [List.takeWhile, this]
  | cons c cs ih =>
    have hc := hcs c (by simp)
    simp only [List.cons_append, List.takeWhile]
    simp only [hc, Bool.not_false, List.cons.injEq, true_and]
    exact ih fun d hd => hcs d (by simp [hd])

theorem dropWhile_word_append {cs r : List Char} (hcs : ∀ c ∈ cs, pyIsSpace c = false)
    (hr : ∀ c, r.head? = some c → pyIsSpace c = true) :
    (cs ++ r).dropWhile (fun d => !pyIsSpace d) = r := by
  induction cs with
  | nil =>
    rcases r with _ | ⟨d, ds⟩
    · rfl
    · have := hr d rfl
      simp [List.dropWhile, this]
  | cons c cs ih =>
    have hc := hcs c (by simp)
    simp only [List.cons_append, List.dropWhile, hc, Bool.not_false]
    exact ih fun d hd => hcs d (by simp [hd])

theorem splitWs_word_append {w r : List Char} (hw0 : w ≠ [])
    (hw : ∀ c ∈ w, pyIsSpace c = false)
    (hr : ∀ c, r.head? = some c → pyIsSpace c = true) :
    splitWs (w ++ r) = w :: splitWs r := by
  rcases w with _ | ⟨c, cs⟩
  · exact absurd rfl hw0
  · have hc := hw c (by simp)
    have hcs : ∀ d ∈ cs, pyIsSpace d = false := fun d hd => hw d (by simp [hd])
    simp only [List.cons_append]
    rw [splitWs_cons_nonspace hc, takeWhile_word_append hcs hr, dropWhile_word_append hcs hr]

/-- `re.sub(r'\s+', ' ', l.strip())` equals the split words joined with
single spaces: the central normal-form description of `normWs`. -/
theorem normWs_eq_joinSpace_splitWs (l : List Char) :
    normWs l = joinSpace (splitWs l) := by
  have H : ∀ n (l : List Char), l.length = n → normWs l = joinSpace (splitWs l) := by
    intro n
    induction n using Nat.strong_induction_on with
    | _ n ih => ?_
    intro l hn
    rcases l with _ | ⟨c, cs⟩
    · rw [splitWs_nil]
      unfold normWs
      rw [pyStrip_nil, collapseWs_nil]
      rfl
    · subst hn
      by_cases hc : pyIsSpace c
      · have h1 : normWs (c :: cs) = normWs cs := by
          unfold normWs pyStrip
          rw [lstrip_cons_space hc]
        rw [h1, splitWs_cons_space hc]
        exact ih cs.length (by simp) cs rfl
      · have hc' : pyIsSpace c = false := by simpa using hc
        set w := c :: cs.takeWhile (fun d => !pyIsSpace d) with hwdef
        set r := cs.dropWhile (fun d => !pyIsSpace d) with hrdef
        have hsplit : c :: cs = w ++ r := by
          rw [hwdef, hrdef]
          simp [List.takeWhile_append_dropWhile]
        have hwgood : ∀ d ∈ w, pyIsSpace d = false := by
          rw [hwdef]
          intro d hd
          rcases List.mem_cons.mp hd with hd | hd
          · subst hd; exact hc'
          · have := List.mem_takeWhile_imp hd
            simpa using this
        have hrhead : ∀ d, r.head? = some d → pyIsSpace d = true := by
          intro d hd
          rcases hr0 : r with _ | ⟨e, es⟩
          · rw [hr0] at hd; simp at hd
          · rw [hr0] at hd
            simp only [List.head?_cons, Option.some.injEq] at hd
            subst hd
            have := List.head?_dropWhile_not (fun d => !pyIsSpace d) cs
            rw [← hrdef, hr0] at this
            simpa using this
        have hlstrip : lstrip (c :: cs) = c :: cs := lstrip_cons_nonspace hc' cs
        have lhs1 : normWs (c :: cs) = collapseWs (w ++ rstrip r) := by
          unfold normWs pyStrip
          rw [hlstrip]
          conv_lhs => rw [hsplit]
          rw [rstrip_word_append hwgood]
        have lhs2 : normWs (c :: cs) = w ++ collapseWs (rstrip r) := by
          rw [lhs1, collapseWs_word_append hwgood]
        have hsrw : splitWs (c :: cs) = w :: splitWs r := by
          conv_lhs => rw [hsplit]
          exact splitWs_word_append (by simp [hwdef]) hwgood hrhead
        rw [lhs2, hsrw]
        rcases hr0 : r with _ | ⟨d, r2⟩
        · rw [rstrip_nil, collapseWs_nil, splitWs_nil]
          simp [joinSpace]
        · have hd : pyIsSpace d = true := hrhead d (by rw [hr0]; rfl)
          rw [rstrip_cons]
          by_cases h2 : rstrip r2 = []
          · have hall : ∀ e ∈ r2, pyIsSpace e = true := rstrip_eq_nil_iff.mp h2
            have hsp2 : splitWs (d :: r2) = [] := by
              rw [splitWs_eq_nil_iff]
              intro e he
              rcases List.mem_cons.mp he with he | he
              · subst he; exact hd
              · exact hall e he
            rw [if_pos h2, if_pos hd, collapseWs_nil, hsp2]
            simp [joinSpace]
          · have hlen : r2.length < cs.length + 1 := by
              have h3 : r.length ≤ cs.length := by
                rw [hrdef]
                exact (List.dropWhile_sublist (l := cs) _).length_le
              rw [hr0] at h3
              simp only [List.length_cons] at h3
              omega
            have hc2 : collapseWs (d :: rstrip r2) =
                ' ' :: collapseWs ((rstrip r2).dropWhile pyIsSpace) :=
              collapseWs_cons_space hd _
            have hcomm : (rstrip r2).dropWhile pyIsSpace = rstrip (lstrip r2) := by
              have := lstrip_rstrip_comm r2
              unfold lstrip at this ⊢
              exact this
            have hIH : collapseWs (rstrip (lstrip r2)) = joinSpace (splitWs r2) := by
              have := ih r2.length hlen r2 rfl
              unfold normWs pyStrip at this
              exact this
            have hs2 : splitWs (d :: r2) = splitWs r2 := splitWs_cons_space hd r2
            have hne : splitWs r2 ≠ [] := by
              intro hcon
              exact h2 (rstrip_eq_nil_iff.mpr (splitWs_eq_nil_iff.mp hcon))
            rw [if_neg h2, hc2, hcomm, hIH, hs2, joinSpace_cons_ne_nil w hne]
  exact H l.length l rfl

theorem normWs_nil : normWs [] = [] := by
  unfold normWs
  rw [pyStrip_nil, collapseWs_nil]

theorem splitWs_joinSpace {ws : List (List Char)}
    (h : ∀ w ∈ ws, w ≠ [] ∧ ∀ c ∈ w, pyIsSpace c = false) :
    splitWs (joinSpace ws) = ws := by
  induction ws with
  | nil => exact splitWs_nil
  | cons w ws ih =>
    rcases ws with _ | ⟨v, vs⟩
    · have hw := h w (by simp)
      have : joinSpace [w] = w ++ [] := by simp [joinSpace]
      rw [this, splitWs_word_append hw.1 hw.2 (by intro c hc; simp at hc), splitWs_nil]
    · have hw := h w (by simp)
      have hrest : ∀ u ∈ v :: vs, u ≠ [] ∧ ∀ c ∈ u, pyIsSpace c = false :=
        fun u hu => h u (by simp [hu])
      rw [joinSpace_cons_ne_nil w (by simp)]
      rw [splitWs_word_append hw.1 hw.2 (by intro c hc; simp at hc; simp [← hc, pyIsSpace])]
      rw [splitWs_cons_space (by simp [pyIsSpace]), ih hrest]

theorem splitWs_normWs (l : List Char) : splitWs (normWs l) = splitWs l := by
  rw [normWs_eq_joinSpace_splitWs, splitWs_joinSpace splitWs_tokens]

theorem normWs_idem (l : List Char) : normWs (normWs l) = normWs l := by
  rw [normWs_eq_joinSpace_splitWs (normWs l), splitWs_normWs,
    ← normWs_eq_joinSpace_splitWs]

theorem splitWs_joinSpace_append_token {ws : List (List Char)} {t : List Char}
    (hws : ∀ w ∈ ws, w ≠ [] ∧ ∀ c ∈ w, pyIsSpace c = false)
    (ht0 : t ≠ []) (ht : ∀ c ∈ t, pyIsSpace c = false) :
    ∃ S, splitWs (joinSpace ws ++ t) = S ∧ joinSpace S = joinSpace ws ++ t ∧
      S.length = max ws.length 1 := by
  induction ws with
  | nil =>
    refine ⟨[t], ?_, by simp [joinSpace], by simp⟩
    have : joinSpace [] ++ t = t ++ [] := by simp [joinSpace]
    rw [this, splitWs_word_append ht0 ht (by intro c hc; simp at hc), splitWs_nil]
  | cons w ws ih =>
    rcases ws with _ | ⟨v, vs⟩
    · have hw := hws w (by simp)
      refine ⟨[w ++ t], ?_, by simp [joinSpace], by simp⟩
      have h1 : joinSpace [w] ++ t = (w ++ t) ++ [] := by simp [joinSpace]
      have h2 : w ++ t ≠ [] := by
        intro hcon
        exact ht0 (List.append_eq_nil.mp hcon).2
      have h3 : ∀ c ∈ w ++ t, pyIsSpace c = false := by
        intro c hc
        rcases List.mem_append.mp hc with hc | hc
        · exact hw.2 c hc
        · exact ht c hc
      rw [h1, splitWs_word_append h2 h3 (by intro c hc; simp at hc), splitWs_nil]
    · have hw := hws w (by simp)
      have hrest : ∀ u ∈ v :: vs, u ≠ [] ∧ ∀ c ∈ u, pyIsSpace c = false :=
        fun u hu => hws u (by simp [hu])
      obtain ⟨S', hS1, hS2, hS3⟩ := ih hrest
      have hSne : S' ≠ [] := by
        intro hcon
        rw [hcon] at hS3
        simp at hS3
      refine ⟨w :: S', ?_, ?_, ?_⟩
      · rw [joinSpace_cons_ne_nil w (by simp), List.append_assoc, List.cons_append]
        rw [splitWs_word_append hw.1 hw.2
          (by intro c hc; simp at hc; simp [← hc, pyIsSpace])]
        rw [splitWs_cons_space (by simp [pyIsSpace]), hS1]
      · rw [joinSpace_cons_ne_nil w hSne, hS2,
          joinSpace_cons_ne_nil w (by simp), List.append_assoc, List.cons_append]
      · simp only [List.length_cons, hS3]
        simp

/-- The three dots appended by the truncator. -/
theorem dots_nonspace : ∀ c ∈ "...".toList, pyIsSpace c = false := by decide

theorem truncate_ne_nil_aux {x t : List Char} (ht : t ≠ []) : x ++ t ≠ [] := by
  intro hcon
  exact ht (List.append_eq_nil.mp hcon).2

theorem truncate_of_le {l : List Char} {n : Nat} (h : (splitWs l).length ≤ n) :
    truncate_to_words l n = normWs l := by
  by_cases h0 : l = []
  · subst h0
    rw [normWs_nil]
    rfl
  · unfold truncate_to_words
    rw [if_neg h0]
    simp only [splitWs_normWs]
    rw [if_pos h]

theorem truncate_of_gt {l : List Char} {n : Nat} (h : n < (splitWs l).length) :
    truncate_to_words l n = joinSpace ((splitWs l).take n) ++ "...".toList := by
  have h0 : l ≠ [] := by
    intro hcon
    rw [hcon, splitWs_nil] at h
    simp at h
  unfold truncate_to_words
  rw [if_neg h0]
  simp only [splitWs_normWs]
  rw [if_neg (by omega)]

theorem take_tokens {l : List Char} {n : Nat} :
    ∀ w ∈ (splitWs l).take n, w ≠ [] ∧ ∀ c ∈ w, pyIsSpace c = false :=
  fun w hw => splitWs_tokens w (List.take_subset n (splitWs l) hw)

theorem truncate_idem (l : List Char) (n : Nat) :
    truncate_to_words (truncate_to_words l n) n = truncate_to_words l n := by
  by_cases h : (splitWs l).length ≤ n
  · rw [truncate_of_le h, truncate_of_le (by rw [splitWs_normWs]; exact h), normWs_idem]
  · have hgt : n < (splitWs l).length := by omega
    rw [truncate_of_gt hgt]
    obtain ⟨S, hS1, hS2, hS3⟩ :=
      splitWs_joinSpace_append_token (take_tokens (l := l) (n := n))
        (by decide) dots_nonspace
    have hlen : ((splitWs l).take n).length = n := by
      rw [List.length_take]
      omega
    rcases Nat.eq_zero_or_pos n with hn | hn
    · subst hn
      have hr1 : (splitWs (joinSpace ((splitWs l).take 0) ++ "...".toList)).length = 1 := by
        rw [hS1, hS3, hlen]
        rfl
      rw [truncate_of_gt (by rw [hr1]; omega)]
      simp [joinSpace]
    · have hSn : S.length = n := by
        rw [hS3, hlen]
        omega
      rw [truncate_of_le (by rw [hS1, hSn])]
      rw [normWs_eq_joinSpace_splitWs, hS1, hS2]

theorem mem_dedupVariants {vs seen : List (List Char)} {x : List Char}
    (h : x ∈ dedupVariants seen vs) : x ∉ seen ∧ pyStrip x ≠ [] := by
  induction vs generalizing seen with
  | nil => simp [dedupVariants] at h
  | cons v vs ih =>
    rw [dedupVariants] at h
    by_cases hc : v ∉ seen ∧ pyStrip v ≠ []
    · rw [if_pos hc] at h
      rcases List.mem_cons.mp h with h | h
      · subst h; exact hc
      · have := ih h
        exact ⟨fun hx => this.1 (by simp [hx]), this.2⟩
    · rw [if_neg hc] at h
      exact ih h

theorem dedupVariants_nodup (seen vs : List (List Char)) :
    (dedupVariants seen vs).Nodup := by
  induction vs generalizing seen with
  | nil => simp [dedupVariants]
  | cons v vs ih =>
    rw [dedupVariants]
    by_cases hc : v ∉ seen ∧ pyStrip v ≠ []
    · rw [if_pos hc]
      refine List.Nodup.cons ?_ (ih (v :: seen))
      intro hmem
      exact (mem_dedupVariants hmem).1 (by simp)
    · rw [if_neg hc]
      exact ih seen

theorem dedupVariants_eq_nil_iff {seen vs : List (List Char)} :
    dedupVariants seen vs = [] ↔ ∀ v ∈ vs, v ∈ seen ∨ pyStrip v = [] := by
  induction vs generalizing seen with
  | nil => simp [dedupVariants]
  | cons v vs ih =>
    rw [dedupVariants]
    by_cases hc : v ∉ seen ∧ pyStrip v ≠ []
    · rw [if_pos hc]
      simp only [List.cons_ne_nil, false_iff]
      intro hcon
      rcases hcon v (by simp) with h | h
      · exact hc.1 h
      · exact hc.2 h
    · rw [if_neg hc, ih]
      push_neg at hc
      constructor
      · intro hall u hu
        rcases List.mem_cons.mp hu with hu | hu
        · by_cases hv : v ∈ seen
          · exact hu ▸ Or.inl hv
          · exact hu ▸ Or.inr (hc hv)
        · exact hall u hu
      · intro hall u hu
        exact hall u (by simp [hu])

theorem pyStrip_eq_nil_iff {l : List Char} :
    pyStrip l = [] ↔ ∀ c ∈ l, pyIsSpace c = true := by
  unfold pyStrip
  rw [rstrip_eq_nil_iff]
  constructor
  · intro h c hc
    have hsplit : l = l.takeWhile pyIsSpace ++ l.dropWhile pyIsSpace :=
      (List.takeWhile_append_dropWhile (p := pyIsSpace) (l := l)).symm
    rw [hsplit] at hc
    rcases List.mem_append.mp hc with hc | hc
    · exact List.mem_takeWhile_imp hc
    · exact h c hc
  · intro h c hc
    exact h c ((List.dropWhile_sublist pyIsSpace).subset hc)

theorem pyStrip_pyLower_eq_nil_iff {l : List Char} :
    pyStrip (pyLower l) = [] ↔ pyStrip l = [] := by
  rw [pyStrip_eq_nil_iff, pyStrip_eq_nil_iff]
  constructor
  · intro h c hc
    rw [← pyIsSpace_pyToLower]
    exact h (pyToLower c) (List.mem_map_of_mem pyToLower hc)
  · intro h c hc
    obtain ⟨d, hd, rfl⟩ := List.mem_map.mp hc
    rw [pyIsSpace_pyToLower]
    exact h d hd

theorem gsv_eq_nil_of_strip_nil {title : List Char} (h : pyStrip title = []) :
    generate_search_variants title = [] := by
  by_cases h0 : title = []
  · rw [generate_search_variants, if_pos h0]
  · rw [generate_search_variants, if_neg h0]
    have hall : ∀ c ∈ title, pyIsSpace c = true := pyStrip_eq_nil_iff.mp h
    have hwords : splitWs title = [] := splitWs_eq_nil_iff.mpr hall
    have halllow : ∀ c ∈ pyLower title, pyIsSpace c = true :=
      pyStrip_eq_nil_iff.mp (pyStrip_pyLower_eq_nil_iff.mpr h)
    rw [dedupVariants_eq_nil_iff]
    intro v hv
    right
    rw [hwords] at hv
    rw [if_neg (by decide : ¬(([] : List (List Char)).length > 1))] at hv
    rw [List.filter_nil, List.map_nil] at hv
    simp only [List.append_nil, List.nil_append] at hv
    rcases List.mem_cons.mp hv with hv | hv
    · subst hv
      exact pyStrip_pyLower_eq_nil_iff.mpr h
    · rcases List.mem_append.mp hv with hv | hv
      · obtain ⟨p, -, hp⟩ := List.mem_filterMap.mp hv
        by_cases hpp : p.isPrefixOf (pyLower title)
        · rw [if_pos hpp] at hp
          obtain ⟨rfl⟩ := hp
          rw [pyStrip_eq_nil_iff]
          intro c hc
          exact halllow c ((List.drop_sublist _ _).subset hc)
        · rw [if_neg hpp] at hp
          exact absurd hp (by simp)
      · by_cases hns : (pyLower title).filter
            (fun c => isWordChar c || pyIsSpace c) ≠ pyLower title
        · rw [if_pos hns] at hv
          rcases List.mem_singleton.mp hv with rfl
          rw [pyStrip_eq_nil_iff]
          intro c hc
          exact halllow c (List.mem_of_mem_filter hc)
        · rw [if_neg hns] at hv
          simp at hv

/-! ### Counter semantics -/

theorem updateCounters_one (a b c d e f : Nat) :
    updateCounters [a, b, c, d, e, f] 1 = [a + 1, 0, 0, 0, 0, 0] := rfl

theorem updateCounters_two (a b c d e f : Nat) :
    updateCounters [a, b, c, d, e, f] 2 = [a, b + 1, 0, 0, 0, 0] := rfl

theorem updateCounters_three (a b c d e f : Nat) :
    updateCounters [a, b, c, d, e, f] 3 = [a, b, c + 1, 0, 0, 0] := rfl

theorem updateCounters_four (a b c d e f : Nat) :
    updateCounters [a, b, c, d, e, f] 4 = [a, b, c, d + 1, 0, 0] := rfl

theorem updateCounters_five (a b c d e f : Nat) :
    updateCounters [a, b, c, d, e, f] 5 = [a, b, c, d, e + 1, 0] := rfl

theorem updateCounters_six (a b c d e f : Nat) :
    updateCounters [a, b, c, d, e, f] 6 = [a, b, c, d, e, f + 1] := rfl

/-! ### Skipping of empty-titled headings -/

theorem extractLoop_skip_empty {h : Node} {sibs : List Node}
    (rest : List (Node × List Node)) (counters : List Nat) (stack : List (List Char))
    (hempty : clean_heading_text (getAllText h) = []) :
    extractLoop ((h, sibs) :: rest) counters stack = extractLoop rest counters stack := by
  rw [extractLoop, if_pos hempty]

theorem extractLoop_keys_insert_empty (pre : List (Node × List Node)) {h : Node}
    {sibs : List Node} (rest : List (Node × List Node)) (counters : List Nat)
    (stack : List (List Char))
    (hempty : clean_heading_text (getAllText h) = []) :
    (extractLoop (pre ++ (h, sibs) :: rest) counters stack).map Heading.reference_key =
      (extractLoop (pre ++ rest) counters stack).map Heading.reference_key := by
  induction pre generalizing counters stack with
  | nil =>
    rw [List.nil_append, List.nil_append, extractLoop_skip_empty rest counters stack hempty]
  | cons p pre ih =>
    obtain ⟨h2, sibs2⟩ := p
    rw [List.cons_append, List.cons_append]
    by_cases ht : clean_heading_text (getAllText h2) = []
    · rw [extractLoop_skip_empty _ counters stack ht,
        extractLoop_skip_empty _ counters stack ht]
      exact ih counters stack
    · rw [extractLoop, if_neg ht, extractLoop, if_neg ht]
      simp only [List.map_cons]
      exact congrArg₂ List.cons rfl (ih _ _)

/-! ### The sibling walk of the content preview -/

theorem collectSiblingText_stop_not_mem {stop : Node} {sibs : List Node}
    (h : stop ∉ sibs) :
    collectSiblingText (some stop) sibs = collectSiblingText none sibs := by
  induction sibs with
  | nil => rfl
  | cons s rest ih =>
    have hne : ¬(some s = some stop) := by
      intro hcon
      apply h
      simp only [Option.some.injEq] at hcon
      exact hcon ▸ List.mem_cons_self s rest
    have hrest : stop ∉ rest := fun hx => h (List.mem_cons_of_mem s hx)
    rw [collectSiblingText, if_neg hne, collectSiblingText,
      if_neg (by simp : ¬(some s = (none : Option Node)))]
    rw [ih hrest]

/-! ### Image tagger -/

theorem replace_images_nil : replace_images_with_tags [] = [] := by
  rw [replace_images_with_tags]

theorem tryImageMatch_none_of_no_dot {l : List Char} (h : ∀ c ∈ l, c ≠ '.') :
    tryImageMatch l = none := by
  unfold tryImageMatch
  simp only []
  by_cases h0 : List.takeWhile isImgStemChar l = []
  · rw [if_pos h0]
  · rw [if_neg h0]
    rcases hd : l.drop (List.takeWhile isImgStemChar l).length with _ | ⟨c, after⟩
    · rfl
    · have hc : c ∈ l := by
        have h1 : c ∈ l.drop (List.takeWhile isImgStemChar l).length := by
          rw [hd]
          exact List.mem_cons_self c after
        exact (List.drop_sublist _ _).subset h1
      simp only []
      rw [if_neg (h c hc)]

theorem replace_images_no_dot {l : List Char} (h : ∀ c ∈ l, c ≠ '.') :
    replace_images_with_tags l = l := by
  induction l with
  | nil => exact replace_images_nil
  | cons c cs ih =>
    have hm : tryImageMatch (c :: cs) = none :=
      tryImageMatch_none_of_no_dot h
    unfold replace_images_with_tags
    split
    · rename_i stem e rest heq
      rw [hm] at heq
      exact absurd heq (by simp)
    · exact congrArg (c :: ·) (ih fun d hd => h d (by simp [hd]))

theorem replace_images_cons_some {c : Char} {cs stem e rest : List Char}
    (h : tryImageMatch (c :: cs) = some (stem, e, rest)) :
    replace_images_with_tags (c :: cs) =
      "[IMAGE: ".toList ++ ((stem ++ '.' :: e).splitOn '.').headD [] ++
        ']' :: replace_images_with_tags rest := by
  conv_lhs => rw [replace_images_with_tags]
  split
  · rename_i stem' e' rest' heq
    rw [h] at heq
    simp only [Option.some.injEq, Prod.mk.injEq] at heq
    obtain ⟨h1, h2, h3⟩ := heq
    subst h1; subst h2; subst h3
    rfl
  · rename_i heq
    rw [h] at heq
    exact absurd heq (by simp)

theorem replace_images_photo_jpg (rest : List Char) (h : ∀ c ∈ rest, c ≠ '.') :
    replace_images_with_tags ("photo.jpg".toList ++ rest) =
      "[IMAGE: photo]".toList ++ rest := by
  have hshape : "photo.jpg".toList ++ rest = 'p' :: ("hoto.jpg".toList ++ rest) := rfl
  have hm : tryImageMatch ('p' :: ("hoto.jpg".toList ++ rest)) =
      some ("photo".toList, "jpg".toList, rest) := rfl
  rw [hshape, replace_images_cons_some hm, replace_images_no_dot h]
  rfl

/-! ### JSON renderer factorization -/

theorem save_headings_json_factor (hs : List Heading) (u t : List Char) :
    save_headings_json_text hs u t =
      jsonBeforeTimestamp u ++ (jsonStr t ++ jsonAfterTimestamp hs) := by
  have n2 : (0 + 2 : Nat) = 2 := rfl
  have n4 : (2 + 2 : Nat) = 4 := rfl
  have r0 : List.replicate 0 ' ' = ([] : List Char) := rfl
  have r2 : List.replicate 2 ' ' = [' ', ' '] := rfl
  have r4 : List.replicate 4 ' ' = [' ', ' ', ' ', ' '] := rfl
  have e1 : "\x7b\n  ".toList = ['\x7b', '\n', ' ', ' '] := rfl
  have e2 : ": \x7b\n    ".toList = [':', ' ', '\x7b', '\n', ' ', ' ', ' ', ' '] := rfl
  have e3 : ": ".toList = [':', ' '] := rfl
  have e4 : ",\n    ".toList = [',', '\n', ' ', ' ', ' ', ' '] := rfl
  have e5 : "\n  \x7d,\n  ".toList = ['\n', ' ', ' ', '\x7d', ',', '\n', ' ', ' '] := rfl
  have e6 : "\n\x7d".toList = ['\n', '\x7d'] := rfl
  have dO : ∀ (d : Nat) (k : List Char) (v : Json) (fs : List (List Char × Json)),
      dumpJson d (.obj ((k, v) :: fs)) =
        '\x7b' :: '\n' ::
          joinItems ((List.replicate (d + 2) ' ' ++ jsonStr k ++ ':' :: ' ' ::
            dumpJson (d + 2) v) :: dumpFields (d + 2) fs) ++
          '\n' :: List.replicate d ' ' ++ ['\x7d'] := fun _ _ _ _ => rfl
  have dF : ∀ (d : Nat) (k : List Char) (v : Json) (fs : List (List Char × Json)),
      dumpFields d ((k, v) :: fs) =
        (List.replicate d ' ' ++ jsonStr k ++ ':' :: ' ' :: dumpJson d v) ::
          dumpFields d fs := fun _ _ _ _ => rfl
  have dFnil : ∀ d : Nat, dumpFields d [] = [] := fun _ => rfl
  have dS : ∀ (d : Nat) (s : List Char), dumpJson d (.str s) = jsonStr s := fun _ _ => rfl
  have dN : ∀ (d n : Nat), dumpJson d (.num n) = Nat.toDigits 10 n := fun _ _ => rfl
  simp only [save_headings_json_text, outputData, dO, dF, dFnil, dS, dN, joinItems,
    jsonBeforeTimestamp, jsonAfterTimestamp, n2, n4, r0, r2, r4, e1, e2, e3, e4, e5, e6,
    List.append_assoc, List.cons_append, List.nil_append]

/-! # Claim theorems -/

/-- C1 (counterexample): the claim says ordinals are never reset by a
shallower heading, so in `h2 A, h1 B, h2 C` heading C would get ordinal 2;
the code gives C the reference key `[2.1] C` — the level-2 counter was
reset to zero by the `h1`. -/
theorem C1_counterexample :
    ((extract_headings_from_soup docOrdinals).map fun r => r.reference_key) =
      ["[2.1] A".toList, "[1.1] B".toList, "[2.1] C".toList] ∧
    "[2.1] C".toList ≠ "[2.2] C".toList := by
  constructor
  · simp +decide [extract_headings_from_soup, docOrdinals, headingsWithSiblings,
      extractLoop, clean_heading_text, normWs, pyStrip, lstrip, rstrip, collapseWs,
      getAllText, getAllTextList, nodeLevel, nodeTag, nodeAttrs, updateCounters,
      resetDeeper, referenceKeyOf, List.range', isHeadingTag, pyIsSpace, Nat.toDigits,
      Nat.toDigitsCore, getAttr]
  · decide

/-- C1 (amended): the per-level ordinal counter increments each time a
non-empty-titled heading of that level is seen, leaves shallower-level
counters untouched, and IS reset to zero at every deeper level whenever a
shallower-or-equal heading is processed — so in `h2 A, h1 B, h2 C`,
heading C gets ordinal 1, not 2. -/
theorem C1_amended_reset_semantics :
    ∀ (a b c d e f lv : Nat), 1 ≤ lv → lv ≤ 6 →
      (updateCounters [a, b, c, d, e, f] lv)[lv - 1]? =
        ([a, b, c, d, e, f][lv - 1]?).map (· + 1) ∧
      (∀ j, j < lv - 1 →
        (updateCounters [a, b, c, d, e, f] lv)[j]? = [a, b, c, d, e, f][j]?) ∧
      (∀ j, lv ≤ j → j < 6 →
        (updateCounters [a, b, c, d, e, f] lv)[j]? = some 0) := by
  intro a b c d e f lv h1 h2
  interval_cases lv <;>
    exact ⟨rfl, fun j hj => by interval_cases j <;> rfl,
      fun j hj1 hj2 => by interval_cases j <;> rfl⟩

/-- Witness for C1 (amended) at counters `[7,7,7,7,7,7]`, level 2. -/
theorem C1_amended_reset_semantics_witness :
    (updateCounters [7, 7, 7, 7, 7, 7] 2)[2 - 1]? =
      ([7, 7, 7, 7, 7, 7][2 - 1]?).map (· + 1) ∧
    (updateCounters [7, 7, 7, 7, 7, 7] 2)[0]? = [7, 7, 7, 7, 7, 7][0]? ∧
    (updateCounters [7, 7, 7, 7, 7, 7] 2)[4]? = some 0 := by
  obtain ⟨w1, w2, w3⟩ := C1_amended_reset_semantics 7 7 7 7 7 7 2 (by decide) (by decide)
  exact ⟨w1, w2 0 (by decide), w3 4 (by decide) (by decide)⟩

/-- C2: immediately after a non-empty-titled heading of level L updates
the counters, every counter at an index strictly greater than L-1 is
zero, and the reset loop itself (`for j in range(level, 6): if j >
level-1: ...`) zeroes all of those indices on any counter state — it is
an effective reset, not a no-op. -/
theorem C2_reset_effective :
    ∀ (a b c d e f lv : Nat), 1 ≤ lv → lv ≤ 6 →
      (∀ j, lv ≤ j → j < 6 → (updateCounters [a, b, c, d, e, f] lv)[j]? = some 0) ∧
      (∀ j, lv ≤ j → j < 6 → (resetDeeper [a, b, c, d, e, f] lv)[j]? = some 0) := by
  intro a b c d e f lv h1 h2
  interval_cases lv <;>
    exact ⟨fun j hj1 hj2 => by interval_cases j <;> rfl,
      fun j hj1 hj2 => by interval_cases j <;> rfl⟩

/-- Witness for C2 at counters `[9,9,9,9,9,9]`, level 2, index 4. -/
theorem C2_reset_effective_witness :
    (updateCounters [9, 9, 9, 9, 9, 9] 2)[4]? = some 0 ∧
    (resetDeeper [9, 9, 9, 9, 9, 9] 2)[4]? = some 0 := by
  obtain ⟨w1, w2⟩ := C2_reset_effective 9 9 9 9 9 9 2 (by decide) (by decide)
  exact ⟨w1 4 (by decide) (by decide), w2 4 (by decide) (by decide)⟩

/-- C3: the document `<h1>Introduction</h1><h2>Background</h2>
<h2>Scope</h2>` with no id attributes yields exactly three records, in
order, with reference keys `[1.1] Introduction`, `[2.1] Background`,
`[2.2] Scope` and the expected hierarchical paths. -/
theorem C3_intro_outline :
    (extract_headings_from_soup docIntro).length = 3 ∧
    ((extract_headings_from_soup docIntro).map
        fun r => (r.reference_key, r.hierarchical_path)) =
      [("[1.1] Introduction".toList, ["Introduction".toList]),
       ("[2.1] Background".toList, ["Introduction".toList, "Background".toList]),
       ("[2.2] Scope".toList, ["Introduction".toList, "Scope".toList])] := by
  refine ⟨?_, ?_⟩ <;>
    simp +decide [extract_headings_from_soup, docIntro, headingsWithSiblings,
      extractLoop, clean_heading_text, normWs, pyStrip, lstrip, rstrip, collapseWs,
      getAllText, getAllTextList, nodeLevel, nodeTag, nodeAttrs, updateCounters,
      resetDeeper, referenceKeyOf, List.range', isHeadingTag, pyIsSpace, Nat.toDigits,
      Nat.toDigitsCore, getAttr]

/-- C4 (counterexample): in
`<div><h1>A</h1><div><h2>B</h2><p>after</p></div></div>` there is no
document node strictly between A and B, so the claim requires A's preview
to be empty; the code gives A the preview `Bafter`, which contains the
text of the next heading B (and of the content after it) because the
sibling walk flattens the whole container in which B is nested. -/
theorem C4_counterexample :
    ((extract_headings_from_soup docNested).map fun r => r.content) =
      ["Bafter".toList, "after".toList] ∧
    "B".toList <:+: "Bafter".toList := by
  constructor
  · simp +decide [extract_headings_from_soup, docNested, headingsWithSiblings,
      extractLoop, clean_heading_text, normWs, pyStrip, lstrip, rstrip, collapseWs,
      getAllText, getAllTextList, nodeLevel, nodeTag, nodeAttrs, updateCounters,
      resetDeeper, referenceKeyOf, List.range', isHeadingTag, pyIsSpace, Nat.toDigits,
      Nat.toDigitsCore, getAttr, extract_section_content, collectSiblingText,
      getTextStrip, getTextStripList, joinSpace, replace_images_no_dot,
      truncate_to_words, splitWs, isImgStemChar]
  · decide

/-- C4 (amended): the sibling walk stops only when the literal next
heading element occurs as a direct sibling; when the next heading is not
among the siblings (e.g. nested inside a sibling container), the walk
behaves exactly as if there were no stop element and consumes every
sibling, including the full flattened text of containers holding the
next heading. -/
theorem C4_amended_sibling_walk :
    ∀ (stop : Node) (sibs : List Node), stop ∉ sibs →
      collectSiblingText (some stop) sibs = collectSiblingText none sibs :=
  fun _ _ h => collectSiblingText_stop_not_mem h

/-- Witness for C4 (amended): the nested `<h2>B</h2>` stop element is not
a direct sibling of `<h1>A</h1>`. -/
theorem C4_amended_sibling_walk_witness :
    collectSiblingText (some (.elem "h2" [] [.text "B".toList]))
        [.elem "div" [] [.elem "h2" [] [.text "B".toList],
          .elem "p" [] [.text "after".toList]]] =
      collectSiblingText none
        [.elem "div" [] [.elem "h2" [] [.text "B".toList],
          .elem "p" [] [.text "after".toList]]] :=
  C4_amended_sibling_walk _ _ (by decide)

/-- C5 (counterexample): the claim says an empty sequence is returned
only when the title is the empty string; the whitespace-only title `" "`
is nonempty yet yields no variants (its only candidate, the lowercased
title, is dropped as all-whitespace). -/
theorem C5_counterexample :
    generate_search_variants " ".toList = [] ∧ " ".toList ≠ [] :=
  ⟨gsv_eq_nil_of_strip_nil (by decide), by decide⟩

/-- C5 (amended): the search-variant generator never returns duplicates
and never returns an empty or whitespace-only entry, and it returns an
empty sequence exactly when the title is empty or whitespace-only. -/
theorem C5_amended_variants :
    ∀ title : List Char,
      (generate_search_variants title).Nodup ∧
      (∀ v ∈ generate_search_variants title, pyStrip v ≠ []) ∧
      (generate_search_variants title = [] ↔ pyStrip title = []) := by
  intro title
  refine ⟨?_, ?_, ?_, ?_⟩
  · by_cases h0 : title = []
    · rw [generate_search_variants, if_pos h0]
      exact List.nodup_nil
    · rw [generate_search_variants, if_neg h0]
      exact dedupVariants_nodup _ _
  · intro v hv
    by_cases h0 : title = []
    · rw [generate_search_variants, if_pos h0] at hv
      simp at hv
    · rw [generate_search_variants, if_neg h0] at hv
      exact (mem_dedupVariants hv).2
  · intro h
    by_cases h0 : title = []
    · rw [h0]
      rfl
    · rw [generate_search_variants, if_neg h0] at h
      have hmain := dedupVariants_eq_nil_iff.mp h (pyLower title)
        (List.mem_cons_self _ _)
      rcases hmain with hmem | hstrip
      · simp at hmem
      · exact pyStrip_pyLower_eq_nil_iff.mp hstrip
  · exact gsv_eq_nil_of_strip_nil

/-- Witness for C5 (amended) at the title `" x"`, whose only variant is
the lowercased title itself. -/
theorem C5_amended_variants_witness : pyStrip " x".toList ≠ [] := by
  refine (C5_amended_variants " x".toList).2.1 " x".toList ?_
  simp +decide [generate_search_variants, dedupVariants, prefixesToRemove, pyLower,
    pyToLower, splitWs, pyIsSpace, pyStrip, lstrip, rstrip, isWordChar]

/-- C6: the word-budget truncator is idempotent; text of at most `limit`
whitespace-split words is returned whitespace-normalized and otherwise
unchanged; text of exactly `limit+1` words yields the first `limit` words
joined by single spaces with the `...` marker appended directly with no
space before it. -/
theorem C6_truncator :
    (∀ (l : List Char) (n : Nat),
      truncate_to_words (truncate_to_words l n) n = truncate_to_words l n) ∧
    (∀ (l : List Char) (n : Nat), (splitWs l).length ≤ n →
      truncate_to_words l n = normWs l) ∧
    (∀ (l : List Char) (n : Nat), (splitWs l).length = n + 1 →
      truncate_to_words l n = joinSpace ((splitWs l).take n) ++ "...".toList) :=
  ⟨truncate_idem,
   fun _ _ h => truncate_of_le h,
   fun _ _ h => truncate_of_gt (by omega)⟩

/-- Witness for C6 on concrete strings. -/
theorem C6_truncator_witness :
    truncate_to_words (truncate_to_words "a b c".toList 2) 2 =
      truncate_to_words "a b c".toList 2 ∧
    truncate_to_words "one two".toList 5 = normWs "one two".toList ∧
    truncate_to_words "a b c".toList 2 =
      joinSpace ((splitWs "a b c".toList).take 2) ++ "...".toList := by
  refine ⟨C6_truncator.1 "a b c".toList 2, C6_truncator.2.1 "one two".toList 5 ?_,
    C6_truncator.2.2 "a b c".toList 2 ?_⟩ <;>
    simp +decide [splitWs, pyIsSpace]

/-- C7: on a page with one stylesheet link whose fetch fails and one
image whose fetch succeeds, the inlining transformation completes and
returns the document with the stylesheet link untouched (original
external reference kept) and the image `src` rewritten to a
`data:<content-type>;base64,<payload>` URI. -/
theorem C7_inliner_fault_tolerance :
    embedResources demoFetch demoJoin "https://site/".toList demoDoc =
      [.elem "html" []
        [.elem "head" []
          [.elem "link" [("rel", "stylesheet".toList), ("href", "style.css".toList)] []],
         .elem "body" []
           [.elem "img" [("src", "data:image/jpeg;base64,AQID".toList)] []]]] := by
  decide

/-- C8: a heading element whose cleaned title is empty produces no
record, changes no counter and no stack entry (the loop state passed on
is untouched), and the reference keys of a run containing such an element
equal those of the run with the element removed. -/
theorem C8_empty_headings :
    ∀ (h : Node) (sibs : List Node) (pre rest : List (Node × List Node))
      (counters : List Nat) (stack : List (List Char)),
      clean_heading_text (getAllText h) = [] →
      extractLoop ((h, sibs) :: rest) counters stack = extractLoop rest counters stack ∧
      (extractLoop (pre ++ (h, sibs) :: rest) counters stack).map
          Heading.reference_key =
        (extractLoop (pre ++ rest) counters stack).map Heading.reference_key :=
  fun _ sibs pre rest counters stack hempty =>
    ⟨extractLoop_skip_empty rest counters stack hempty,
     extractLoop_keys_insert_empty pre rest counters stack hempty⟩

/-- Witness for C8: a whitespace-only `<h2>` between two real headings. -/
theorem C8_empty_headings_witness :
    extractLoop [((.elem "h2" [] [.text "  ".toList]), []),
        ((.elem "h2" [] [.text "B".toList]), [])] (List.replicate 6 0) [] =
      extractLoop [((.elem "h2" [] [.text "B".toList]), [])] (List.replicate 6 0) [] ∧
    (extractLoop ([((.elem "h1" [] [.text "A".toList]), [])] ++
        ((.elem "h2" [] [.text "  ".toList]), []) ::
          [((.elem "h2" [] [.text "B".toList]), [])]) (List.replicate 6 0) []).map
        Heading.reference_key =
      (extractLoop ([((.elem "h1" [] [.text "A".toList]), [])] ++
        [((.elem "h2" [] [.text "B".toList]), [])]) (List.replicate 6 0) []).map
        Heading.reference_key :=
  C8_empty_headings (.elem "h2" [] [.text "  ".toList]) []
    [((.elem "h1" [] [.text "A".toList]), [])]
    [((.elem "h2" [] [.text "B".toList]), [])] (List.replicate 6 0) []
    (by simp +decide [clean_heading_text, getAllText, getAllTextList, normWs, pyStrip,
      lstrip, rstrip, collapseWs, pyIsSpace])

/-- C9: rendering the JSON twice on identical heading records and source
URL yields byte-identical output except for the embedded timestamp
string: both outputs share a common prefix and a common suffix around
their timestamp literals. -/
theorem C9_json_renderer_two_runs :
    ∀ (headings : List Heading) (sourceUrl t1 t2 : List Char),
      ∃ p q, save_headings_json_text headings sourceUrl t1 = p ++ (jsonStr t1 ++ q) ∧
        save_headings_json_text headings sourceUrl t2 = p ++ (jsonStr t2 ++ q) :=
  fun hs u t1 t2 =>
    ⟨jsonBeforeTimestamp u, jsonAfterTimestamp hs,
     save_headings_json_factor hs u t1, save_headings_json_factor hs u t2⟩

/-- C10: the image-reference tagger needs no token boundary after the
extension: whatever dot-free text follows `photo.jpg`, the filename is
still replaced, and in particular `photo.jpgx` becomes
`[IMAGE: photo]x`. -/
theorem C10_image_tag_inside_token :
    (∀ rest : List Char, (∀ c ∈ rest, c ≠ '.') →
      replace_images_with_tags ("photo.jpg".toList ++ rest) =
        "[IMAGE: photo]".toList ++ rest) ∧
    replace_images_with_tags "photo.jpgx".toList = "[IMAGE: photo]x".toList := by
  refine ⟨replace_images_photo_jpg, ?_⟩
  exact replace_images_photo_jpg ['x'] (by decide)

/-- Witness for C10 with the trailing word character `z`. -/
theorem C10_image_tag_inside_token_witness :
    replace_images_with_tags "photo.jpgz".toList = "[IMAGE: photo]z".toList :=
  C10_image_tag_inside_token.1 ['z'] (by decide)

end WOE
